import Mathlib

/-!
Verification development for the repo-intelligence static-analysis core.

The definitions below are a shallow embedding, in Lean 4, of the Python
source under `src/`:

* `src/analysis/best_practices.py` — `Severity`, `Finding`, `Rule`,
  `evaluate_rules`;
* `src/agents/gap_analyzer.py` — `_compute_maturity_score`;
* `src/tools/dependency_mapper.py` — the import extractors,
  `build_dependency_graph`, `find_circular_dependencies`,
  `find_high_coupling_modules`;
* `src/tools/repo_reader.py` — the missing-root guard of `scan_repository`.

Python `dict`s preserving insertion order are embedded as association
lists, Python `set`s as lists with membership-based insert/remove, Python
exceptions as `Except`, and Python numeric `round` (banker's rounding on
an exact ratio) as `pyRound` on `ℚ`.
-/

namespace RepoIntel

/-- `Severity` from `src/analysis/best_practices.py` (a five-valued enum). -/
inductive Severity where
  | critical
  | high
  | medium
  | low
  | info
deriving DecidableEq, Repr

/-- `Finding` dataclass from `src/analysis/best_practices.py`. -/
structure Finding where
  rule_name : String
  description : String
  severity : Severity
  passed : Bool
  evidence : String := ""
  recommendation : String := ""
deriving DecidableEq, Repr

/-- `Rule` dataclass from `src/analysis/best_practices.py`.  The `check`
callable receives `(repo_path, key_files_content, tech_stack)` and either
returns a `Finding` or raises; raising is embedded as `Except.error`
carrying the exception's message. -/
structure Rule where
  name : String
  description : String
  severity : Severity
  category : String
  check : String → String → String → Except String Finding
  frameworks : List String := ["general"]

/-- `evaluate_rules` from `src/analysis/best_practices.py` (lines 480–508):
for each rule in order, run its check; if the check raises, log and append a
synthesized failing `Finding` whose description carries the error text and
whose severity is the rule's declared severity. -/
def evaluate_rules (repo_path key_files tech_stack : String)
    (rules : List Rule) : List Finding :=
  rules.map fun rule =>
    match rule.check repo_path key_files tech_stack with
    | Except.ok finding => finding
    | Except.error exc =>
        { rule_name := rule.name
          description := "Rule evaluation failed: " ++ exc
          severity := rule.severity
          passed := false }

/-! ## Maturity scorer (`src/agents/gap_analyzer.py`) -/

/-- Severity weights from `_compute_maturity_score`
(`severity_weights` dict). -/
def severityWeight : Severity → ℕ
  | Severity.critical => 20
  | Severity.high => 15
  | Severity.medium => 10
  | Severity.low => 5
  | Severity.info => 2

/-- Python's built-in `round` of an exact value to an integer: round
half to even (banker's rounding).  Python's `round` on a float rounds
the float's exact binary value this way. -/
def pyRound (q : ℚ) : ℤ :=
  let f := ⌊q⌋
  if q - f < 1/2 then f
  else if q - f > 1/2 then f + 1
  else if f % 2 = 0 then f else f + 1

/-- Base-2 logarithm on naturals by repeated halving, fuelled so that it
is structural (the fuel `n` always suffices since halving reaches 1 in
`log₂ n` steps). -/
def log2Aux : ℕ → ℕ → ℕ
  | 0, _ => 0
  | fuel + 1, n => if n ≤ 1 then 0 else log2Aux fuel (n / 2) + 1

/-- `⌊log₂ n⌋` for `1 ≤ n` (and 0 at 0). -/
def natLog2 (n : ℕ) : ℕ :=
  log2Aux n n

/-- The binade exponent of a positive rational: the unique `e` with
`2^e ≤ q < 2^(e+1)`, computed from the logarithms of numerator and
denominator. -/
def qExp (q : ℚ) : ℤ :=
  if (2:ℚ) ^ ((natLog2 q.num.toNat : ℤ) - natLog2 q.den) ≤ q
  then (natLog2 q.num.toNat : ℤ) - natLog2 q.den
  else (natLog2 q.num.toNat : ℤ) - natLog2 q.den - 1

/-- Round a nonnegative rational to the IEEE-754 binary64 grid,
nearest-ties-to-even: scale into the 53-bit binade `[2^52, 2^53)`,
round the significand half-to-even, and scale back. -/
def flPos (q : ℚ) : ℚ :=
  (pyRound (q * (2:ℚ) ^ ((52:ℤ) - qExp q)) : ℚ) * (2:ℚ) ^ (qExp q - 52)

/-- Round a rational to the IEEE-754 binary64 value nearest it (ties to
even), with an unbounded exponent: no overflow or subnormal range, which
is exact for every value binary64 represents as a normal number
(magnitudes in `(2^-1022, 2^1024)`) — in particular for every quotient
and product the maturity scorer forms on repositories of fewer than
~10^300 findings. -/
def fl (q : ℚ) : ℚ :=
  if q < 0 then -flPos (-q) else flPos q

/-- `_compute_maturity_score` from `src/agents/gap_analyzer.py`
(lines 55–84): empty list scores 0; otherwise accumulate total and earned
weights over the findings in a single pass and return
`min(100, round((earned_weight / total_weight) * 100))`, where the
division and the multiplication are performed in IEEE-754 double
arithmetic: CPython's `int / int` produces the double nearest the exact
quotient, the `float * int` product is again correctly rounded, and
`round` rounds the resulting double's exact value half-to-even. -/
def _compute_maturity_score (findings : List Finding) : ℤ :=
  if findings.isEmpty then 0
  else
    let acc := findings.foldl
      (fun (tw : ℕ × ℕ) f =>
        let w := severityWeight f.severity
        (tw.1 + w, if f.passed then tw.2 + w else tw.2))
      (0, 0)
    if acc.1 = 0 then 0
    else min 100 (pyRound (fl (fl ((acc.2 : ℚ) / (acc.1 : ℚ)) * 100)))

/-- Total weight of a finding list, written the way the spec states it
(sum over the list of each finding's severity weight). -/
def totalWeight (findings : List Finding) : ℕ :=
  (findings.map (fun f => severityWeight f.severity)).sum

/-- Earned weight: sum of the weights of the findings that passed,
written the way the spec states it. -/
def earnedWeight (findings : List Finding) : ℕ :=
  ((findings.filter (fun f => f.passed)).map
    (fun f => severityWeight f.severity)).sum

/-- The maturity score as the C4 claim's formula reads in exact
arithmetic: `round(earned/total × 100)` on the exact rational, clamped
to the range 0–100, with the empty list scoring 0. -/
def specMaturityScore (findings : List Finding) : ℤ :=
  if findings.isEmpty then 0
  else
    max 0 (min 100
      (pyRound ((earnedWeight findings : ℚ) / (totalWeight findings : ℚ) * 100)))

/-- The maturity score as the amended C4 claim phrases it:
`round(earned/total × 100)` with the division and multiplication each
rounded to binary64, clamped to the range 0–100, the empty list scoring
0, and earned/total the filtered and unfiltered weight sums. -/
def specMaturityScoreFloat (findings : List Finding) : ℤ :=
  if findings.isEmpty then 0
  else
    max 0 (min 100
      (pyRound (fl (fl ((earnedWeight findings : ℚ) /
        (totalWeight findings : ℚ)) * 100))))

/-! ## Import extractors (`src/tools/dependency_mapper.py`, lines 28–93)

Each extractor in the source opens and parses/scans its file and returns a
list of imported root names; read or parse failures are caught and yield
`[]`.  The file-reading and host-language parsing step is embedded as the
extractor's input: an `Except` that is `error` exactly when reading or
parsing raised, and otherwise carries the parsed import-bearing syntax
(the `ast` nodes met by `ast.walk`, respectively the regex matches in
source order). -/

/-- An import-bearing node of a parsed Python module, in `ast.walk` order:
`ast.Import` (with its alias names), `ast.ImportFrom` (whose `module` is
`None` for purely relative imports), or any other node. -/
inductive PyNode where
  | imp (names : List String)
  | impFrom (module : Option String)
  | other
deriving DecidableEq, Repr

/-- A match of `_JS_IMPORT_RE`: either an `import … from '<path>'` form
(capture group 1) or a `require('<path>')` form (capture group 2). -/
inductive JsTok where
  | importFrom (path : String)
  | requireCall (path : String)
deriving DecidableEq, Repr

/-- Python `str.split` with a single-character separator, over a char
list: separators delimit (possibly empty) fields and the result is never
empty. -/
def splitChar (sep : Char) : List Char → List (List Char)
  | [] => [[]]
  | c :: cs =>
    match splitChar sep cs with
    | [] => [[]]
    | h :: t => if c = sep then [] :: h :: t else (c :: h) :: t

/-- Python `s.split(sep)` for a one-character `sep`. -/
def splitOnChar (sep : Char) (s : String) : List String :=
  (splitChar sep s.toList).map String.mk

/-- Python `str.lower` restricted to ASCII — sufficient for the
extension comparisons the source performs, which are all against ASCII
literals. -/
def toLowerAscii (s : String) : String :=
  String.mk (s.toList.map Char.toLower)

/-- Python `s.replace(old, new)` for one-character arguments. -/
def replaceChar (old new : Char) (s : String) : String :=
  String.mk (s.toList.map (fun x => if x = old then new else x))

/-- `name.split(".")[0]` — the root segment of a dotted path. -/
def rootDotSegment (s : String) : String :=
  (splitOnChar '.' s).headD s

/-- `module.split("/")[0]` — the first path segment before any slash. -/
def firstSlashSegment (s : String) : String :=
  (splitOnChar '/' s).headD s

/-- The `ast.walk` loop of `_extract_python_imports` on a successfully
parsed tree: append the root segment of every `Import` alias name and of
every non-`None` `ImportFrom` module. -/
def pyWalkImports (nodes : List PyNode) : List String :=
  nodes.foldl
    (fun imports n =>
      match n with
      | PyNode.imp names => imports ++ names.map rootDotSegment
      | PyNode.impFrom (some m) => imports ++ [rootDotSegment m]
      | PyNode.impFrom none => imports
      | PyNode.other => imports)
    []

/-- The `_JS_IMPORT_RE.finditer` loop of `_extract_js_imports` on
successfully read text: for each match take whichever capture group
fired and, when it is non-empty, append its first slash segment. -/
def jsMatchImports (ms : List JsTok) : List String :=
  ms.foldl
    (fun imports m =>
      let module := match m with
        | JsTok.importFrom p => p
        | JsTok.requireCall p => p
      if module = "" then imports
      else imports ++ [firstSlashSegment module])
    []

/-- The `_JAVA_IMPORT_RE` loop of `_extract_java_imports` on
successfully read text: map each matched dotted package name to its root
segment. -/
def javaMatchImports (ms : List String) : List String :=
  ms.map rootDotSegment

/-- The outcome of `open(...).read()` plus `ast.parse` on a Python file,
by the exception class CPython raises: `ok` with the parsed tree,
`synErr` for a `SyntaxError` (malformed source), `osErr` for an
`OSError` (unreadable file), `valErr` for a `ValueError` — raised by
`open` on a path containing a null byte (every CPython version) and by
`ast.parse` on source containing a null byte (before CPython 3.12). -/
inductive PyParseOutcome where
  | ok (nodes : List PyNode)
  | synErr (msg : String)
  | osErr (msg : String)
  | valErr (msg : String)
deriving DecidableEq, Repr

/-- The outcome of `open(...).read()` on a JS/TS or Java/Kotlin file, by
the exception class CPython raises: `ok` with the matches the regex
finds in the text, `osErr` for an `OSError`, `valErr` for the
`ValueError` `open` raises on a path containing a null byte. -/
inductive ReadOutcome (α : Type) where
  | ok (val : α)
  | osErr (msg : String)
  | valErr (msg : String)
deriving DecidableEq, Repr

/-- `_extract_python_imports` (lines 28–46): its `try` block catches
exactly `(SyntaxError, OSError)` and returns `[]` for them; any other
exception — in particular the `ValueError` of a null byte in the path or
(pre-3.12) in the source — propagates to the caller, embedded here as
`Except.error`. -/
def _extract_python_imports (outcome : PyParseOutcome) :
    Except String (List String) :=
  match outcome with
  | PyParseOutcome.ok nodes => Except.ok (pyWalkImports nodes)
  | PyParseOutcome.synErr _ => Except.ok []
  | PyParseOutcome.osErr _ => Except.ok []
  | PyParseOutcome.valErr msg => Except.error msg

/-- `_extract_js_imports` (lines 55–68): its `try` block catches exactly
`OSError` and returns `[]` for it; any other exception — in particular
the `ValueError` of a null byte in the path — propagates. -/
def _extract_js_imports (outcome : ReadOutcome (List JsTok)) :
    Except String (List String) :=
  match outcome with
  | ReadOutcome.ok ms => Except.ok (jsMatchImports ms)
  | ReadOutcome.osErr _ => Except.ok []
  | ReadOutcome.valErr msg => Except.error msg

/-- `_extract_java_imports` (lines 74–82): its `try` block catches
exactly `OSError` and returns `[]` for it; any other exception — in
particular the `ValueError` of a null byte in the path — propagates. -/
def _extract_java_imports (outcome : ReadOutcome (List String)) :
    Except String (List String) :=
  match outcome with
  | ReadOutcome.ok ms => Except.ok (javaMatchImports ms)
  | ReadOutcome.osErr _ => Except.ok []
  | ReadOutcome.valErr msg => Except.error msg

/-! ## Dependency graph builder (`build_dependency_graph`, lines 100–155) -/

/-- `os.path.splitext` restricted to a bare file name: split at the last
dot, provided some character strictly before that dot is not itself a dot
(so leading-dot names like `.bashrc` have no extension). -/
def splitext (s : String) : String × String :=
  let cs := s.toList
  let dotIdxs := (List.range cs.length).filter
    (fun i => cs.get? i = some '.')
  match dotIdxs.getLast? with
  | none => (s, "")
  | some i =>
      if (cs.take i).all (fun c => c = '.') then (s, "")
      else (String.mk (cs.take i), String.mk (cs.drop i))

/-- The extensions registered in `_EXTRACTORS`. -/
def extractorExts : List String :=
  [".py", ".js", ".ts", ".jsx", ".tsx", ".java", ".kt"]

/-- The parsed/read content of one walked file, tagged by which extractor
family applies to it (`.py` → Python AST walk; `.js`/`.ts`/`.jsx`/`.tsx`
→ JS regex matches; `.java`/`.kt` → Java regex matches); `other` stands
for a file whose extension has no registered extractor.  `Except.error`
is a failure of one of the classes the extractor catches (SyntaxError or
OSError for Python, OSError for JS/Java): a walk met by an uncaught
exception (the null-byte `ValueError` of the extractor theorems) aborts
`build_dependency_graph` and yields no graph at all, so the graphs this
builder returns arise exactly from walks of this shape. -/
inductive FileContent where
  | py (parse : Except String (List PyNode))
  | js (readRes : Except String (List JsTok))
  | java (readRes : Except String (List String))
  | other
deriving Repr

/-- One file yielded by the pruned `os.walk` of the repository root:
`dirRel` is the walk directory's path relative to the root (`"."` at the
root itself), `fname` the file's name, `content` the outcome of reading
and parsing it. -/
structure FileEntry where
  dirRel : String
  fname : String
  content : FileContent

/-- Dispatch to the extractor of the file's language family
(`_EXTRACTORS[ext]` applied to the file): the import list on a
successful read/parse, `[]` on a caught failure. -/
def extractImports : FileContent → List String
  | FileContent.py (Except.ok nodes) => pyWalkImports nodes
  | FileContent.py (Except.error _) => []
  | FileContent.js (Except.ok ms) => jsMatchImports ms
  | FileContent.js (Except.error _) => []
  | FileContent.java (Except.ok ms) => javaMatchImports ms
  | FileContent.java (Except.error _) => []
  | FileContent.other => []

/-- Lower-cased extension of a walked file
(`os.path.splitext(fname)[1].lower()`). -/
def fileExt (f : FileEntry) : String :=
  toLowerAscii (splitext f.fname).2

/-- The walked files whose extension has a registered extractor, in walk
order (the `source_files` list of lines 117–132). -/
def sourceFiles (files : List FileEntry) : List FileEntry :=
  files.filter (fun f => extractorExts.contains (fileExt f))

/-- `os.path.relpath(full_path, repo_path)` of a walked file. -/
def relPath (f : FileEntry) : String :=
  if f.dirRel = "." then f.fname else f.dirRel ++ "/" ++ f.fname

/-- The internal-name registry (lines 117–132): for every recognized
source file register its base name (file name without extension) and,
when its directory is not the root, the first component of the
directory's relative path (`rel.replace(os.sep, ".").split(".")[0]`). -/
def internalModules (files : List FileEntry) : List String :=
  (sourceFiles files).foldl
    (fun acc f =>
      let acc1 := acc ++ [(splitext f.fname).1]
      if f.dirRel = "." then acc1
      else acc1 ++
        [(splitOnChar '.' (replaceChar '/' '.' f.dirRel)).headD ""])
    []

/-- `build_dependency_graph` (lines 100–155) given the pruned walk's file
list: register internal names over all recognized files, then for the
first `maxFiles` recognized files extract imports, keep those found in
the internal-name registry and, when the retained list is non-empty, add
the entry `relpath → retained-list` to the graph (insertion order). -/
def build_dependency_graph (files : List FileEntry) (maxFiles : ℕ) :
    List (String × List String) :=
  let internal := internalModules files
  ((sourceFiles files).take maxFiles).filterMap
    (fun f =>
      let imports := extractImports f.content
      let internalImports := imports.filter (fun i => internal.contains i)
      if internalImports.isEmpty then none
      else some (relPath f, internalImports))

/-! ## Cycle detection (`find_circular_dependencies`, lines 162–195) -/

/-- `graph.get(node, [])` on the insertion-ordered dict. -/
def lookupG (graph : List (String × List String)) (node : String) :
    List String :=
  match graph.find? (fun p => p.1 == node) with
  | some p => p.2
  | none => []

/-- Python `set.add`. -/
def setInsert (x : String) (l : List String) : List String :=
  if l.contains x then l else x :: l

/-- Python `set.discard`. -/
def setRemove (x : String) (l : List String) : List String :=
  l.filter (fun y => y != x)

/-- The mutable state shared by `_dfs` in `find_circular_dependencies`:
the `visited` and `rec_stack` sets, the accumulated `cycles`, and the
current `path` list. -/
structure DfsState where
  visited : List String
  recStack : List String
  cycles : List (List String)
  path : List String

/-- The cycle recorded when `neighbour` is met on the recursion stack:
`path[path.index(neighbour):] + [neighbour]`. -/
def recordedCycle (path : List String) (nb : String) : List String :=
  path.drop (List.indexOf nb path) ++ [nb]

/-- One iteration of the `for neighbour in graph.get(node, [])` loop body
of `_dfs`: recurse (here: `visitUnvisited`) on an unvisited neighbour;
record a cycle when a visited neighbour is on the recursion stack. -/
def dfsStep (visitUnvisited : String → DfsState → DfsState)
    (st : DfsState) (nb : String) : DfsState :=
  if st.visited.contains nb then
    if st.recStack.contains nb then
      { st with cycles := st.cycles ++ [recordedCycle st.path nb] }
    else st
  else visitUnvisited nb st

/-- `_dfs(node)` of `find_circular_dependencies`: mark the node visited,
push it on the recursion stack and path, run the neighbour loop, then pop
the path and drop the node from the recursion stack.  Recursion is
fuelled (structurally on the fuel); the top-level entry supplies more
fuel than the deepest possible nesting — each nested call is on a
previously unvisited node — so the fuel-exhausted branch is never taken
from `find_circular_dependencies`. -/
def dfsVisit (graph : List (String × List String)) :
    ℕ → String → DfsState → DfsState
  | 0, _, s => s
  | fuel + 1, node, s =>
    let s1 : DfsState :=
      { visited := setInsert node s.visited
        recStack := setInsert node s.recStack
        cycles := s.cycles
        path := s.path ++ [node] }
    let s2 := (lookupG graph node).foldl
      (dfsStep (dfsVisit graph fuel)) s1
    { visited := s2.visited
      recStack := setRemove node s2.recStack
      cycles := s2.cycles
      path := s2.path.dropLast }

/-- Fuel strictly exceeding the number of node names occurring in the
graph, hence exceeding the deepest possible `_dfs` nesting. -/
def dfsFuel (graph : List (String × List String)) : ℕ :=
  (graph.map (fun p => p.2.length)).sum + graph.length + 1

/-- `find_circular_dependencies` (lines 162–195): run `_dfs` from every
not-yet-visited key, in insertion order, and return the accumulated
cycles. -/
def find_circular_dependencies (graph : List (String × List String)) :
    List (List String) :=
  let init : DfsState :=
    { visited := [], recStack := [], cycles := [], path := [] }
  (graph.foldl
      (fun s p =>
        if s.visited.contains p.1 then s
        else dfsVisit graph (dfsFuel graph) p.1 s)
      init).cycles

/-! ## Coupling ranking (`find_high_coupling_modules`, lines 198–214) -/

/-- One `in_degree[dep] += 1` step on the insertion-ordered
`defaultdict(int)`. -/
def bumpDegree (acc : List (String × ℕ)) (dep : String) :
    List (String × ℕ) :=
  if acc.any (fun p => p.1 == dep) then
    acc.map (fun p => if p.1 == dep then (p.1, p.2 + 1) else p)
  else acc ++ [(dep, 1)]

/-- The `in_degree` dict after the double loop over
`graph.values()`. -/
def inDegreeList (graph : List (String × List String)) :
    List (String × ℕ) :=
  ((graph.map Prod.snd).flatten).foldl bumpDegree []

/-- `in_degree[m]` (0 when absent). -/
def inDegree (graph : List (String × List String)) (m : String) : ℕ :=
  match (inDegreeList graph).find? (fun p => p.1 == m) with
  | some p => p.2
  | none => 0

/-- Stable insertion step of a descending sort by `key` — modelling
Python's stable `sorted(…, key=…, reverse=True)`. -/
def insertDesc (key : String → ℕ) (x : String) :
    List String → List String
  | [] => [x]
  | y :: ys => if key y ≤ key x then x :: y :: ys else y :: insertDesc key x ys

/-- Stable descending sort by `key`. -/
def sortDesc (key : String → ℕ) (l : List String) : List String :=
  l.foldr (insertDesc key) []

/-- `find_high_coupling_modules` (lines 198–214): build the in-degree
dict, keep the modules whose count meets the threshold (dict order), and
sort them by in-degree descending. -/
def find_high_coupling_modules (graph : List (String × List String))
    (threshold : ℕ) : List String :=
  sortDesc (fun m => inDegree graph m)
    (((inDegreeList graph).filter (fun p => threshold ≤ p.2)).map Prod.fst)

/-! ## Missing-root behaviour of the scan entry points -/

/-- The guard of `scan_repository` (`src/tools/repo_reader.py`,
lines 41–44): when the root is not a directory, log an error and return
`("", "", [])`; otherwise return what the directory walk produces (the
walk's output is abstracted here as `walkResult` — the claim under check
concerns only the missing-root branch). -/
def scan_repository (rootIsDir : Bool)
    (walkResult : String × String × List String) :
    String × String × List String :=
  if rootIsDir then walkResult else ("", "", [])

/-- `build_dependency_graph` as invoked on a repository root:
`os.walk` of a path that is not a directory yields no entries, and the
function has no existence guard, so a missing root is scanned as the
empty file list. -/
def build_dependency_graph_root (rootIsDir : Bool)
    (walkFiles : List FileEntry) (maxFiles : ℕ) :
    List (String × List String) :=
  build_dependency_graph (if rootIsDir then walkFiles else []) maxFiles

/-! ## Concrete inputs used by witnesses and counterexamples -/

/-- A rule whose check always raises (embedded as `Except.error`). -/
def throwingRule : Rule :=
  { name := "always-throws"
    description := "a check that always raises"
    severity := Severity.high
    category := "demo"
    check := fun _ _ _ => Except.error "boom" }

/-- A rule whose check returns normally but stamps a `rule_name` other
than the rule's own declared name. -/
def renamingRule : Rule :=
  { name := "declared-name"
    description := "a check that mislabels its finding"
    severity := Severity.low
    category := "demo"
    check := fun _ _ _ =>
      Except.ok
        { rule_name := "other-name"
          description := "ok"
          severity := Severity.low
          passed := true } }

/-- A rule whose check returns a fixed passing finding. -/
def passingRule : Rule :=
  { name := "always-passes"
    description := "a check that returns its own finding"
    severity := Severity.info
    category := "demo"
    check := fun _ _ _ =>
      Except.ok
        { rule_name := "always-passes"
          description := "fine"
          severity := Severity.info
          passed := true } }

/-- The walk of a repository root holding exactly `a.py` (whose sole
statement imports `b`) and `b.py` (whose sole statement imports `a`). -/
def abWalk : List FileEntry :=
  [ { dirRel := ".", fname := "a.py"
      content := FileContent.py (Except.ok [PyNode.imp ["b"]]) },
    { dirRel := ".", fname := "b.py"
      content := FileContent.py (Except.ok [PyNode.imp ["a"]]) } ]

/-- The walk of a repository root holding exactly `pkg/a.py`, whose sole
statement imports `pkg`. -/
def pkgWalk : List FileEntry :=
  [ { dirRel := "pkg", fname := "a.py"
      content := FileContent.py (Except.ok [PyNode.imp ["pkg"]]) } ]

/-- In-degree as the spec's words define it for C2: the number of
distinct source nodes (graph entries) whose edge list names the node. -/
def distinctDependents (graph : List (String × List String))
    (m : String) : ℕ :=
  (graph.filter (fun p => p.2.contains m)).length

/-- Number of occurrences of a name across all edge lists — the quantity
the source's `in_degree` dict actually accumulates. -/
def occCount (graph : List (String × List String)) (m : String) : ℕ :=
  ((graph.map Prod.snd).flatten).count m

/-- The C8 claim's reading of an edge entry "corresponding to a file
that was actually discovered": the name is a discovered source file's
repo-relative path or its base name. -/
def correspondsToFile (files : List FileEntry) (name : String) : Bool :=
  (sourceFiles files).any
    (fun f => name == relPath f || name == (splitext f.fname).1)

/-- A concrete finding used in witnesses. -/
def infoPassFinding : Finding :=
  { rule_name := "r", description := "", severity := Severity.info
    passed := true }

/-- A concrete finding used in witnesses. -/
def criticalFailFinding : Finding :=
  { rule_name := "r", description := "", severity := Severity.critical
    passed := false }

/-- A finding list with earned weight 23 and total weight 40, at which
the double-precision score (57) departs from the exact formula (58). -/
def c4Findings : List Finding :=
  [ { rule_name := "h1", description := "", severity := Severity.high
      passed := true },
    { rule_name := "i1", description := "", severity := Severity.info
      passed := true },
    { rule_name := "i2", description := "", severity := Severity.info
      passed := true },
    { rule_name := "i3", description := "", severity := Severity.info
      passed := true },
    { rule_name := "i4", description := "", severity := Severity.info
      passed := true },
    { rule_name := "h2", description := "", severity := Severity.high
      passed := false },
    { rule_name := "i5", description := "", severity := Severity.info
      passed := false } ]

/-- Edge relation of a graph value: `b` appears in `a`'s adjacency
list. -/
def EdgeRel (graph : List (String × List String)) (a b : String) : Prop :=
  b ∈ lookupG graph a

/-- A cycle in the sense of the spec: a closed walk — at least two
entries, consecutive entries joined by graph edges, first entry equal to
the last. -/
def IsClosedWalk (graph : List (String × List String))
    (c : List String) : Prop :=
  2 ≤ c.length ∧ c.Chain' (EdgeRel graph) ∧ c.head? = c.getLast?

/-- A graph containing no cycles. -/
def AcyclicGraph (graph : List (String × List String)) : Prop :=
  ∀ c : List String, ¬ IsClosedWalk graph c

/-- Invariant of the DFS state: every recorded cycle is a closed walk of
the graph, the current path is an edge chain, and every recursion-stack
entry lies on the current path and is visited. -/
def DfsInv (graph : List (String × List String)) (s : DfsState) : Prop :=
  (∀ c ∈ s.cycles, IsClosedWalk graph c) ∧
  s.path.Chain' (EdgeRel graph) ∧
  (∀ x ∈ s.recStack, x ∈ s.path) ∧
  (∀ x ∈ s.recStack, x ∈ s.visited)

end RepoIntel

namespace RepoIntel

/-! # Theorems -/

/-! ## Helper lemmas about the maturity scorer -/

lemma two_le_severityWeight (s : Severity) : 2 ≤ severityWeight s := by
  cases s <;> simp [severityWeight]

lemma totalWeight_cons (f : Finding) (l : List Finding) :
    totalWeight (f :: l) = severityWeight f.severity + totalWeight l := by
  simp [totalWeight]

lemma earnedWeight_cons (f : Finding) (l : List Finding) :
    earnedWeight (f :: l) =
      (if f.passed then severityWeight f.severity else 0) + earnedWeight l := by
  by_cases hp : f.passed <;> simp [earnedWeight, List.filter_cons, hp]

lemma totalWeight_pos (l : List Finding) (h : l ≠ []) :
    0 < totalWeight l := by
  cases l with
  | nil => exact absurd rfl h
  | cons f t =>
      have := two_le_severityWeight f.severity
      rw [totalWeight_cons]
      omega

lemma earnedWeight_le_totalWeight (l : List Finding) :
    earnedWeight l ≤ totalWeight l := by
  induction l with
  | nil => simp [earnedWeight, totalWeight]
  | cons f t ih =>
      rw [totalWeight_cons, earnedWeight_cons]
      split <;> omega

lemma maturity_foldl (l : List Finding) (a b : ℕ) :
    l.foldl
      (fun (tw : ℕ × ℕ) f =>
        let w := severityWeight f.severity
        (tw.1 + w, if f.passed then tw.2 + w else tw.2))
      (a, b) = (a + totalWeight l, b + earnedWeight l) := by
  induction l generalizing a b with
  | nil => simp [totalWeight, earnedWeight]
  | cons f t ih =>
      simp only [List.foldl_cons, ih, totalWeight_cons, earnedWeight_cons]
      by_cases hp : f.passed <;> simp [hp, Prod.ext_iff] <;> omega

lemma le_pyRound (q : ℚ) : ⌊q⌋ ≤ pyRound q := by
  unfold pyRound
  dsimp only
  split_ifs <;> omega

lemma pyRound_le (q : ℚ) : pyRound q ≤ ⌊q⌋ + 1 := by
  unfold pyRound
  dsimp only
  split_ifs <;> omega

lemma pyRound_nonneg (q : ℚ) (h : 0 ≤ q) : 0 ≤ pyRound q := by
  have h0 : (0 : ℤ) ≤ ⌊q⌋ := Int.floor_nonneg.mpr h
  have := le_pyRound q
  omega

lemma pyRound_mono {a b : ℚ} (h : a ≤ b) : pyRound a ≤ pyRound b := by
  have hf : ⌊a⌋ ≤ ⌊b⌋ := Int.floor_le_floor h
  rcases lt_or_eq_of_le hf with hlt | heq
  · calc pyRound a ≤ ⌊a⌋ + 1 := pyRound_le a
      _ ≤ ⌊b⌋ := by omega
      _ ≤ pyRound b := le_pyRound b
  · unfold pyRound
    dsimp only
    rw [heq]
    have hab : a - ⌊b⌋ ≤ b - ⌊b⌋ := by
      rw [heq] at *
      linarith
    split_ifs <;> first | omega | linarith

lemma pyRound_intCast (n : ℤ) : pyRound (n : ℚ) = n := by
  unfold pyRound
  dsimp only
  rw [Int.floor_intCast]
  norm_num

/-! ## Properties of the binary64 rounding `fl` -/

lemma log2Aux_bracket :
    ∀ fuel n : ℕ, n ≤ fuel → 1 ≤ n →
      2 ^ log2Aux fuel n ≤ n ∧ n < 2 ^ (log2Aux fuel n + 1) := by
  intro fuel
  induction fuel with
  | zero => intro n hn h1; omega
  | succ fuel ih =>
      intro n hn h1
      by_cases hsmall : n ≤ 1
      · have hn1 : n = 1 := by omega
        subst hn1
        simp [log2Aux]
      · obtain ⟨hl, hr⟩ := ih (n / 2) (by omega) (by omega)
        have heq : log2Aux (fuel + 1) n = log2Aux fuel (n / 2) + 1 := by
          simp [log2Aux, hsmall]
        rw [heq]
        have e1 : 2 ^ (log2Aux fuel (n / 2) + 1) =
            2 * 2 ^ log2Aux fuel (n / 2) := by ring
        have e2 : 2 ^ (log2Aux fuel (n / 2) + 1 + 1) =
            2 * 2 ^ (log2Aux fuel (n / 2) + 1) := by ring
        omega

lemma natLog2_bracket (n : ℕ) (h : 1 ≤ n) :
    2 ^ natLog2 n ≤ n ∧ n < 2 ^ (natLog2 n + 1) :=
  log2Aux_bracket n n le_rfl h

lemma two_zpow_pos (e : ℤ) : (0:ℚ) < (2:ℚ) ^ e :=
  zpow_pos (by norm_num) e

lemma two_zpow_le {m n : ℤ} (h : m ≤ n) : (2:ℚ) ^ m ≤ (2:ℚ) ^ n :=
  zpow_le_zpow_right₀ (by norm_num) h

lemma two_zpow_mul (m n : ℤ) :
    (2:ℚ) ^ m * (2:ℚ) ^ n = (2:ℚ) ^ (m + n) :=
  (zpow_add₀ (by norm_num : (2:ℚ) ≠ 0) m n).symm

lemma qExp_bracket (q : ℚ) (hq : 0 < q) :
    (2:ℚ) ^ qExp q ≤ q ∧ q < (2:ℚ) ^ (qExp q + 1) := by
  have hnum : 0 < q.num := Rat.num_pos.mpr hq
  have hdenN : 0 < q.den := q.pos
  have hdenQ : (0:ℚ) < (q.den : ℚ) := by exact_mod_cast hdenN
  obtain ⟨ha1, ha2⟩ := natLog2_bracket q.num.toNat (by omega)
  obtain ⟨hb1, hb2⟩ := natLog2_bracket q.den hdenN
  have hnumQ : (q.num.toNat : ℚ) = (q.num : ℚ) := by
    have := Int.toNat_of_nonneg hnum.le
    exact_mod_cast congrArg (fun z : ℤ => (z : ℚ)) this
  have hA1 : (2:ℚ) ^ (natLog2 q.num.toNat : ℤ) ≤ (q.num : ℚ) := by
    rw [zpow_natCast, ← hnumQ]
    exact_mod_cast ha1
  have hA2 : (q.num : ℚ) < (2:ℚ) ^ ((natLog2 q.num.toNat : ℤ) + 1) := by
    rw [show ((natLog2 q.num.toNat : ℤ) + 1) =
        ((natLog2 q.num.toNat + 1 : ℕ) : ℤ) by push_cast; ring,
      zpow_natCast, ← hnumQ]
    exact_mod_cast ha2
  have hB1 : (2:ℚ) ^ (natLog2 q.den : ℤ) ≤ (q.den : ℚ) := by
    rw [zpow_natCast]
    exact_mod_cast hb1
  have hB2 : (q.den : ℚ) < (2:ℚ) ^ ((natLog2 q.den : ℤ) + 1) := by
    rw [show ((natLog2 q.den : ℤ) + 1) = ((natLog2 q.den + 1 : ℕ) : ℤ)
        by push_cast; ring, zpow_natCast]
    exact_mod_cast hb2
  have hq_eq : (q.num : ℚ) = q * (q.den : ℚ) := by
    have hnd := Rat.num_div_den q
    have h' : (q.num : ℚ) = (q.num : ℚ) / (q.den : ℚ) * (q.den : ℚ) := by
      field_simp
    rw [h', hnd]
  unfold qExp
  split_ifs with hbr
  · refine ⟨hbr, ?_⟩
    have hkey : q * (q.den : ℚ) <
        (2:ℚ) ^ ((natLog2 q.num.toNat : ℤ) - natLog2 q.den + 1) *
          (q.den : ℚ) := by
      rw [← hq_eq]
      calc (q.num : ℚ) < (2:ℚ) ^ ((natLog2 q.num.toNat : ℤ) + 1) := hA2
        _ = (2:ℚ) ^ ((natLog2 q.num.toNat : ℤ) - natLog2 q.den + 1) *
              (2:ℚ) ^ (natLog2 q.den : ℤ) := by
            rw [two_zpow_mul]; congr 1; ring
        _ ≤ _ := by
            exact mul_le_mul_of_nonneg_left hB1 (two_zpow_pos _).le
    exact lt_of_mul_lt_mul_right hkey hdenQ.le
  · push_neg at hbr
    constructor
    · have hkey :
          (2:ℚ) ^ ((natLog2 q.num.toNat : ℤ) - natLog2 q.den - 1) *
            (q.den : ℚ) ≤ q * (q.den : ℚ) := by
        rw [← hq_eq]
        calc (2:ℚ) ^ ((natLog2 q.num.toNat : ℤ) - natLog2 q.den - 1) *
              (q.den : ℚ)
            ≤ (2:ℚ) ^ ((natLog2 q.num.toNat : ℤ) - natLog2 q.den - 1) *
              (2:ℚ) ^ ((natLog2 q.den : ℤ) + 1) :=
              mul_le_mul_of_nonneg_left hB2.le (two_zpow_pos _).le
          _ = (2:ℚ) ^ (natLog2 q.num.toNat : ℤ) := by
              rw [two_zpow_mul]; congr 1; ring
          _ ≤ (q.num : ℚ) := hA1
      exact le_of_mul_le_mul_right hkey hdenQ
    · rw [show (natLog2 q.num.toNat : ℤ) - natLog2 q.den - 1 + 1 =
          (natLog2 q.num.toNat : ℤ) - natLog2 q.den by ring]
      exact hbr

lemma qExp_unique (q : ℚ) (e : ℤ) (hq : 0 < q)
    (hl : (2:ℚ) ^ e ≤ q) (hu : q < (2:ℚ) ^ (e + 1)) : qExp q = e := by
  obtain ⟨hl', hu'⟩ := qExp_bracket q hq
  by_contra hne
  rcases lt_or_gt_of_ne hne with hlt | hgt
  · have := two_zpow_le (show qExp q + 1 ≤ e by omega)
    linarith
  · have := two_zpow_le (show e + 1 ≤ qExp q by omega)
    linarith

lemma qExp_mono {a b : ℚ} (ha : 0 < a) (hab : a ≤ b) :
    qExp a ≤ qExp b := by
  have hb : 0 < b := lt_of_lt_of_le ha hab
  obtain ⟨hla, -⟩ := qExp_bracket a ha
  obtain ⟨-, hub⟩ := qExp_bracket b hb
  by_contra hlt
  push_neg at hlt
  have := two_zpow_le (show qExp b + 1 ≤ qExp a by omega)
  linarith

lemma flPos_eq (q : ℚ) (e m : ℤ) (hq : 0 < q)
    (hl : (2:ℚ) ^ e ≤ q) (hu : q < (2:ℚ) ^ (e + 1))
    (hm : pyRound (q * (2:ℚ) ^ ((52:ℤ) - e)) = m) :
    flPos q = (m : ℚ) * (2:ℚ) ^ (e - 52) := by
  unfold flPos
  rw [qExp_unique q e hq hl hu, hm]

lemma flPos_bracket (q : ℚ) (hq : 0 < q) :
    (2:ℚ) ^ qExp q ≤ flPos q ∧ flPos q ≤ (2:ℚ) ^ (qExp q + 1) := by
  obtain ⟨hql, hqu⟩ := qExp_bracket q hq
  unfold flPos
  have hs1 : (2:ℚ) ^ (52:ℤ) ≤ q * (2:ℚ) ^ ((52:ℤ) - qExp q) := by
    calc (2:ℚ) ^ (52:ℤ)
        = (2:ℚ) ^ qExp q * (2:ℚ) ^ ((52:ℤ) - qExp q) := by
          rw [two_zpow_mul]; congr 1; ring
      _ ≤ q * (2:ℚ) ^ ((52:ℤ) - qExp q) :=
          mul_le_mul_of_nonneg_right hql (two_zpow_pos _).le
  have hs2 : q * (2:ℚ) ^ ((52:ℤ) - qExp q) < (2:ℚ) ^ (53:ℤ) := by
    calc q * (2:ℚ) ^ ((52:ℤ) - qExp q)
        < (2:ℚ) ^ (qExp q + 1) * (2:ℚ) ^ ((52:ℤ) - qExp q) :=
          mul_lt_mul_of_pos_right hqu (two_zpow_pos _)
      _ = (2:ℚ) ^ (53:ℤ) := by rw [two_zpow_mul]; congr 1; ring
  have hc52 : ((2 ^ 52 : ℤ) : ℚ) = (2:ℚ) ^ (52:ℤ) := by norm_num
  have hc53 : ((2 ^ 53 : ℤ) : ℚ) = (2:ℚ) ^ (53:ℤ) := by norm_num
  have hm1 : (2 ^ 52 : ℤ) ≤ pyRound (q * (2:ℚ) ^ ((52:ℤ) - qExp q)) := by
    calc (2 ^ 52 : ℤ) = pyRound ((2 ^ 52 : ℤ) : ℚ) :=
          (pyRound_intCast _).symm
      _ ≤ _ := pyRound_mono (by rw [hc52]; exact hs1)
  have hm2 : pyRound (q * (2:ℚ) ^ ((52:ℤ) - qExp q)) ≤ (2 ^ 53 : ℤ) := by
    calc pyRound (q * (2:ℚ) ^ ((52:ℤ) - qExp q))
        ≤ pyRound ((2 ^ 53 : ℤ) : ℚ) :=
          pyRound_mono (by rw [hc53]; exact hs2.le)
      _ = (2 ^ 53 : ℤ) := pyRound_intCast _
  constructor
  · calc (2:ℚ) ^ qExp q
        = ((2 ^ 52 : ℤ) : ℚ) * (2:ℚ) ^ (qExp q - 52) := by
          rw [hc52, two_zpow_mul]; congr 1; ring
      _ ≤ (pyRound (q * (2:ℚ) ^ ((52:ℤ) - qExp q)) : ℚ) *
            (2:ℚ) ^ (qExp q - 52) := by
          apply mul_le_mul_of_nonneg_right _ (two_zpow_pos _).le
          exact_mod_cast hm1
  · calc (pyRound (q * (2:ℚ) ^ ((52:ℤ) - qExp q)) : ℚ) *
          (2:ℚ) ^ (qExp q - 52)
        ≤ ((2 ^ 53 : ℤ) : ℚ) * (2:ℚ) ^ (qExp q - 52) := by
          apply mul_le_mul_of_nonneg_right _ (two_zpow_pos _).le
          exact_mod_cast hm2
      _ = (2:ℚ) ^ (qExp q + 1) := by
          rw [hc53, two_zpow_mul]; congr 1; ring

lemma flPos_nonneg (q : ℚ) (h : 0 ≤ q) : 0 ≤ flPos q := by
  unfold flPos
  apply mul_nonneg _ (two_zpow_pos _).le
  have h0 : (0:ℤ) ≤ pyRound (q * (2:ℚ) ^ ((52:ℤ) - qExp q)) :=
    pyRound_nonneg _ (mul_nonneg h (two_zpow_pos _).le)
  exact_mod_cast h0

lemma fl_of_nonneg (q : ℚ) (h : 0 ≤ q) : fl q = flPos q := by
  unfold fl
  rw [if_neg (not_lt.mpr h)]

lemma fl_nonneg (q : ℚ) (h : 0 ≤ q) : 0 ≤ fl q := by
  rw [fl_of_nonneg q h]
  exact flPos_nonneg q h

lemma fl_zero : fl (0:ℚ) = 0 := by
  rw [fl_of_nonneg 0 le_rfl]
  unfold flPos
  rw [zero_mul, show pyRound 0 = 0 from by norm_num [pyRound]]
  norm_num

lemma fl_one : fl (1:ℚ) = 1 := by
  rw [fl_of_nonneg 1 (by norm_num)]
  rw [flPos_eq 1 0 (2 ^ 52) (by norm_num) (by norm_num)
    (by norm_num)
    (by norm_num [pyRound])]
  norm_num

lemma fl_hundred : fl (100:ℚ) = 100 := by
  rw [fl_of_nonneg 100 (by norm_num)]
  rw [flPos_eq 100 6 (100 * 2 ^ 46) (by norm_num) (by norm_num)
    (by norm_num)
    (by norm_num [pyRound])]
  norm_num

lemma fl_mono {a b : ℚ} (h0 : 0 ≤ a) (hab : a ≤ b) : fl a ≤ fl b := by
  rw [fl_of_nonneg a h0, fl_of_nonneg b (le_trans h0 hab)]
  rcases eq_or_lt_of_le h0 with hz | hpos
  · rw [← hz]
    have hz' : flPos 0 = 0 := by
      unfold flPos
      rw [zero_mul, show pyRound 0 = 0 from by norm_num [pyRound]]
      norm_num
    rw [hz']
    exact flPos_nonneg b (le_trans h0 hab)
  · have hb : 0 < b := lt_of_lt_of_le hpos hab
    have hee : qExp a ≤ qExp b := qExp_mono hpos hab
    rcases eq_or_lt_of_le hee with heq | hlt
    · unfold flPos
      rw [← heq]
      apply mul_le_mul_of_nonneg_right _ (two_zpow_pos _).le
      have hmul : a * (2:ℚ) ^ ((52:ℤ) - qExp a) ≤
          b * (2:ℚ) ^ ((52:ℤ) - qExp a) :=
        mul_le_mul_of_nonneg_right hab (two_zpow_pos _).le
      exact_mod_cast pyRound_mono hmul
    · obtain ⟨-, hub⟩ := flPos_bracket a hpos
      obtain ⟨hlb, -⟩ := flPos_bracket b hb
      calc flPos a ≤ (2:ℚ) ^ (qExp a + 1) := hub
        _ ≤ (2:ℚ) ^ qExp b := two_zpow_le (by omega)
        _ ≤ flPos b := hlb

/-- Closed form of `_compute_maturity_score` on a non-empty list. -/
lemma maturity_score_closed (l : List Finding) (h : l ≠ []) :
    _compute_maturity_score l =
      min 100 (pyRound
        (fl (fl ((earnedWeight l : ℚ) / (totalWeight l : ℚ)) * 100))) := by
  have he : l.isEmpty = false := by
    cases l with
    | nil => exact absurd rfl h
    | cons f t => rfl
  have ht : 0 < totalWeight l := totalWeight_pos l h
  unfold _compute_maturity_score
  rw [he]
  simp only [Bool.false_eq_true, if_false, maturity_foldl, Nat.zero_add]
  rw [if_neg (by omega)]

lemma totalWeight_set_passed (l : List Finding) (i : ℕ) (hi : i < l.length) :
    totalWeight (l.set i { l[i] with passed := true }) =
      totalWeight l := by
  induction l generalizing i with
  | nil => simp at hi
  | cons f t ih =>
      cases i with
      | zero => simp [totalWeight_cons]
      | succ j =>
          have hj : j < t.length := by simpa using hi
          simp only [List.set_cons_succ, List.getElem_cons_succ,
            totalWeight_cons]
          rw [ih j hj]

lemma earnedWeight_set_passed (l : List Finding) (i : ℕ) (hi : i < l.length)
    (hp : (l[i]).passed = false) :
    earnedWeight (l.set i { l[i] with passed := true }) =
      earnedWeight l + severityWeight (l[i]).severity := by
  induction l generalizing i with
  | nil => simp at hi
  | cons f t ih =>
      cases i with
      | zero =>
          simp only [List.getElem_cons_zero] at hp
          simp [earnedWeight_cons, hp]
          omega
      | succ j =>
          have hj : j < t.length := by simpa using hi
          simp only [List.getElem_cons_succ] at hp
          simp only [List.set_cons_succ, List.getElem_cons_succ,
            earnedWeight_cons]
          rw [ih j hj hp]
          omega

/-- C4 counterexample: at earned weight 23 and total weight 40 the
program's double-precision computation of `(23/40)*100` yields the
double `57.49999999999999289…`, which rounds to 57, while the claim's
formula `round(earned/total × 100)` in exact arithmetic rounds 57.5
half-to-even to 58. -/
theorem maturity_score_float_departs_exact :
    _compute_maturity_score c4Findings = 57 ∧
    specMaturityScore c4Findings = 58 := by
  constructor
  · rw [maturity_score_closed c4Findings (by decide)]
    rw [show earnedWeight c4Findings = 23 from rfl,
      show totalWeight c4Findings = 40 from rfl]
    rw [show ((23:ℕ):ℚ) / ((40:ℕ):ℚ) = (23:ℚ)/40 from by norm_num]
    rw [show fl ((23:ℚ)/40) =
        (5179139571476070:ℚ) / 9007199254740992 from by
      rw [fl_of_nonneg _ (by norm_num)]
      rw [flPos_eq ((23:ℚ)/40) (-1) 5179139571476070 (by norm_num)
        (by norm_num) (by norm_num) (by norm_num [pyRound])]
      norm_num]
    rw [show fl ((5179139571476070:ℚ) / 9007199254740992 * 100) =
        (8092405580431359:ℚ) / 140737488355328 from by
      rw [fl_of_nonneg _ (by norm_num)]
      rw [flPos_eq _ 5 8092405580431359 (by norm_num) (by norm_num)
        (by norm_num) (by norm_num [pyRound])]
      norm_num]
    rw [show pyRound ((8092405580431359:ℚ) / 140737488355328) = 57 from by
      norm_num [pyRound]]
    norm_num
  · unfold specMaturityScore
    rw [show c4Findings.isEmpty = false from rfl]
    simp only [Bool.false_eq_true, if_false]
    rw [show earnedWeight c4Findings = 23 from rfl,
      show totalWeight c4Findings = 40 from rfl]
    norm_num [pyRound]

/-- C4 (amended): `_compute_maturity_score` equals the spec's formula
with the rounding of the program — `round(earned/total × 100)` where the
division and multiplication are each rounded to binary64 — clamped to
0–100, with each finding contributing its severity's fixed weight to the
total and, only when it passed, to the earned accumulator; the empty
list scores 0. -/
theorem maturity_score_matches_float_spec (findings : List Finding) :
    _compute_maturity_score findings = specMaturityScoreFloat findings := by
  by_cases h : findings = []
  · subst h; rfl
  · have he : findings.isEmpty = false := by
      cases findings with
      | nil => exact absurd rfl h
      | cons f t => rfl
    rw [maturity_score_closed findings h]
    unfold specMaturityScoreFloat
    rw [he]
    simp only [Bool.false_eq_true, if_false]
    have hr0 : (0:ℚ) ≤
        (earnedWeight findings : ℚ) / (totalWeight findings : ℚ) := by
      positivity
    have h0 : 0 ≤ pyRound (fl (fl ((earnedWeight findings : ℚ) /
        (totalWeight findings : ℚ)) * 100)) :=
      pyRound_nonneg _ (fl_nonneg _
        (mul_nonneg (fl_nonneg _ hr0) (by norm_num)))
    rw [max_eq_right (le_min (by norm_num) h0)]

/-- C5: the maturity score of a non-empty all-INFO-all-passed list is
100, of a non-empty all-CRITICAL-all-failed list is 0, and flipping any
single failing finding's `passed` flag to true never decreases the
score. -/
theorem maturity_score_properties :
    (∀ l : List Finding, l ≠ [] →
        (∀ f ∈ l, f.severity = Severity.info ∧ f.passed = true) →
        _compute_maturity_score l = 100) ∧
    (∀ l : List Finding, l ≠ [] →
        (∀ f ∈ l, f.severity = Severity.critical ∧ f.passed = false) →
        _compute_maturity_score l = 0) ∧
    (∀ (l : List Finding) (i : ℕ) (hi : i < l.length),
        (l[i]).passed = false →
        _compute_maturity_score l ≤
          _compute_maturity_score
            (l.set i { l[i] with passed := true })) := by
  refine ⟨?_, ?_, ?_⟩
  · intro l h hall
    rw [maturity_score_closed l h]
    have hearn : earnedWeight l = totalWeight l := by
      unfold earnedWeight totalWeight
      rw [List.filter_eq_self.mpr fun f hf => by simpa using (hall f hf).2]
    have ht : (0 : ℚ) < (totalWeight l : ℚ) := by
      exact_mod_cast totalWeight_pos l h
    rw [hearn, div_self ht.ne', fl_one, one_mul, fl_hundred]
    rw [show (100 : ℚ) = ((100 : ℤ) : ℚ) by norm_num, pyRound_intCast]
    norm_num
  · intro l h hall
    rw [maturity_score_closed l h]
    have hearn : earnedWeight l = 0 := by
      unfold earnedWeight
      rw [List.filter_eq_nil_iff.mpr fun f hf => by simp [(hall f hf).2]]
      rfl
    rw [hearn]
    rw [show ((0:ℕ):ℚ) / ((totalWeight l : ℕ):ℚ) = 0 from by norm_num]
    rw [fl_zero, zero_mul, fl_zero]
    rw [show pyRound (0:ℚ) = 0 from by norm_num [pyRound]]
    norm_num
  · intro l i hi hp
    have hl : l ≠ [] := by
      intro hnil
      subst hnil
      simp at hi
    have hl' : l.set i { l[i] with passed := true } ≠ [] := by
      intro hnil
      have := congrArg List.length hnil
      simp at this
      subst this
      simp at hi
    rw [maturity_score_closed l hl, maturity_score_closed _ hl',
      totalWeight_set_passed l i hi, earnedWeight_set_passed l i hi hp]
    have ht : (0 : ℚ) < (totalWeight l : ℚ) := by
      exact_mod_cast totalWeight_pos l hl
    have hr0 : (0:ℚ) ≤ (earnedWeight l : ℚ) / (totalWeight l : ℚ) := by
      positivity
    have hrr : (earnedWeight l : ℚ) / (totalWeight l : ℚ) ≤
        ((earnedWeight l + severityWeight (l[i]).severity : ℕ) : ℚ) /
          (totalWeight l : ℚ) := by
      gcongr
      exact_mod_cast Nat.le_add_right _ _
    have hf2 := mul_le_mul_of_nonneg_right (fl_mono hr0 hrr)
      (by norm_num : (0:ℚ) ≤ 100)
    have hf3 := fl_mono (mul_nonneg (fl_nonneg _ hr0) (by norm_num)) hf2
    exact min_le_min (le_refl 100) (pyRound_mono hf3)

/-- Witness for C5's theorem at concrete one-finding lists. -/
theorem maturity_score_properties_witness :
    _compute_maturity_score [infoPassFinding] = 100 ∧
    _compute_maturity_score [criticalFailFinding] = 0 ∧
    _compute_maturity_score [criticalFailFinding] ≤
      _compute_maturity_score
        ([criticalFailFinding].set 0
          { criticalFailFinding with passed := true }) :=
  ⟨maturity_score_properties.1 [infoPassFinding] (by decide) (by decide),
   maturity_score_properties.2.1 [criticalFailFinding] (by decide) (by decide),
   maturity_score_properties.2.2 [criticalFailFinding] 0 (by decide) (by decide)⟩

/-! ## Rule engine theorems -/

/-- C3: `evaluate_rules` is total and returns exactly one finding per
registered rule; for a rule whose check raises, the synthesized finding
fails, carries the error message in its description, and bears the rule's
declared severity. -/
theorem evaluate_rules_never_raises (rp kf ts : String)
    (rules : List Rule) :
    (evaluate_rules rp kf ts rules).length = rules.length ∧
    ∀ (i : ℕ) (rule : Rule) (msg : String),
      rules[i]? = some rule →
      rule.check rp kf ts = Except.error msg →
      (evaluate_rules rp kf ts rules)[i]? = some
        { rule_name := rule.name
          description := "Rule evaluation failed: " ++ msg
          severity := rule.severity
          passed := false } := by
  refine ⟨by simp [evaluate_rules], ?_⟩
  intro i rule msg hr hc
  simp [evaluate_rules, List.getElem?_map, hr, hc]

/-- Witness for C3's theorem on a one-rule list whose check raises. -/
theorem evaluate_rules_never_raises_witness :
    (evaluate_rules "" "" "" [throwingRule]).length = 1 ∧
    (evaluate_rules "" "" "" [throwingRule])[0]? = some
      { rule_name := "always-throws"
        description := "Rule evaluation failed: " ++ "boom"
        severity := Severity.high
        passed := false } :=
  ⟨(evaluate_rules_never_raises "" "" "" [throwingRule]).1,
   (evaluate_rules_never_raises "" "" "" [throwingRule]).2 0
     throwingRule "boom" rfl rfl⟩

/-- C10 counterexample: a rule whose check returns normally may stamp a
`rule_name` different from the rule's declared name, and `evaluate_rules`
passes it through unchanged. -/
theorem evaluate_rules_rule_name_mismatch :
    (evaluate_rules "" "" "" [renamingRule]).map Finding.rule_name =
      ["other-name"] ∧
    [renamingRule].map Rule.name = ["declared-name"] ∧
    ("other-name" : String) ≠ "declared-name" :=
  ⟨rfl, rfl, by decide⟩

/-- C10 (amended): `evaluate_rules` preserves registration order and
count — the i-th finding is exactly the i-th rule's check result when the
check returns normally, and the synthesized failure (which does carry the
rule's declared name) when it raises. -/
theorem evaluate_rules_preserves_order (rp kf ts : String)
    (rules : List Rule) :
    (evaluate_rules rp kf ts rules).length = rules.length ∧
    ∀ (i : ℕ) (rule : Rule), rules[i]? = some rule →
      (evaluate_rules rp kf ts rules)[i]? = some
        (match rule.check rp kf ts with
         | Except.ok f => f
         | Except.error exc =>
             { rule_name := rule.name
               description := "Rule evaluation failed: " ++ exc
               severity := rule.severity
               passed := false }) := by
  refine ⟨by simp [evaluate_rules], ?_⟩
  intro i rule hr
  simp [evaluate_rules, List.getElem?_map, hr]

/-- Witness for C10's amended theorem on a two-rule list. -/
theorem evaluate_rules_preserves_order_witness :
    (evaluate_rules "" "" "" [passingRule, throwingRule]).length = 2 ∧
    (evaluate_rules "" "" "" [passingRule, throwingRule])[1]? = some
      { rule_name := "always-throws"
        description := "Rule evaluation failed: " ++ "boom"
        severity := Severity.high
        passed := false } :=
  ⟨(evaluate_rules_preserves_order "" "" "" [passingRule, throwingRule]).1,
   (evaluate_rules_preserves_order "" "" "" [passingRule, throwingRule]).2 1
     throwingRule rfl⟩

/-! ## Extractor and entry-point theorems -/

/-- C7 counterexample: a read/parse failure of class `ValueError` — the
exception `open` raises on a path containing a null byte, and `ast.parse`
raises on null-byte source before CPython 3.12 — is outside every
extractor's `except` clause, so it propagates to the caller instead of
yielding the empty import list. -/
theorem extractors_propagate_null_byte :
    _extract_python_imports (PyParseOutcome.valErr "embedded null byte") =
      Except.error "embedded null byte" ∧
    _extract_js_imports (ReadOutcome.valErr "embedded null byte") =
      Except.error "embedded null byte" ∧
    _extract_java_imports (ReadOutcome.valErr "embedded null byte") =
      Except.error "embedded null byte" :=
  ⟨rfl, rfl, rfl⟩

/-- C7 (amended): each extractor returns the empty import list exactly
for the failure classes its `try` block catches — SyntaxError and
OSError for the Python extractor, OSError for the JS and Java
extractors — while an exception outside those classes (such as the
null-byte ValueError) propagates to the caller. -/
theorem extractors_catch_declared_classes :
    ∀ msg : String,
      _extract_python_imports (PyParseOutcome.synErr msg) =
        Except.ok [] ∧
      _extract_python_imports (PyParseOutcome.osErr msg) =
        Except.ok [] ∧
      _extract_js_imports (ReadOutcome.osErr msg) = Except.ok [] ∧
      _extract_java_imports (ReadOutcome.osErr msg) = Except.ok [] ∧
      _extract_python_imports (PyParseOutcome.valErr msg) =
        Except.error msg ∧
      _extract_js_imports (ReadOutcome.valErr msg) = Except.error msg ∧
      _extract_java_imports (ReadOutcome.valErr msg) = Except.error msg :=
  fun _ => ⟨rfl, rfl, rfl, rfl, rfl, rfl, rfl⟩

/-- C6 counterexample: a missing repository root and an existing empty
repository produce identical `build_dependency_graph` results (the empty
graph), and `scan_repository` on a missing root returns the empty triple
rather than a distinct not-found value. -/
theorem missing_root_indistinguishable :
    build_dependency_graph_root false [] 2000 =
      build_dependency_graph_root true [] 2000 ∧
    scan_repository false ("shop/", "", []) = ("", "", []) :=
  ⟨rfl, rfl⟩

/-- C6 (amended): on a missing root both entry points return empty
results — `scan_repository` the triple `("", "", [])` (after logging an
error) and `build_dependency_graph` the empty graph — rather than raising
or returning an explicit not-found signal. -/
theorem missing_root_amended :
    (∀ (walkFiles : List FileEntry) (maxFiles : ℕ),
        build_dependency_graph_root false walkFiles maxFiles = []) ∧
    (∀ walkResult : String × String × List String,
        scan_repository false walkResult = ("", "", [])) := by
  refine ⟨?_, fun _ => rfl⟩
  intro walkFiles maxFiles
  simp [build_dependency_graph_root, build_dependency_graph, sourceFiles,
    internalModules]

/-- C1: on the two-file repository `a.py` (importing `b`) and `b.py`
(importing `a`), the builder returns exactly the claimed mapping, but
`find_circular_dependencies` applied to that mapping reports no cycle at
all: the graph's keys carry the `.py` extension while its edge targets
are bare module names, so the DFS never re-enters a key. -/
theorem ab_cycle_undetected :
    build_dependency_graph abWalk 2000 =
      [("a.py", ["b"]), ("b.py", ["a"])] ∧
    find_circular_dependencies [("a.py", ["b"]), ("b.py", ["a"])] = [] :=
  ⟨rfl, rfl⟩

/-! ## Soundness of the DFS cycle detector (towards C9) -/

lemma mem_setInsert {x y : String} {l : List String} :
    y ∈ setInsert x l ↔ y = x ∨ y ∈ l := by
  unfold setInsert
  split_ifs with h
  · have h' : x ∈ l := by simpa using h
    constructor
    · exact Or.inr
    · rintro (rfl | hy)
      · exact h'
      · exact hy
  · simp

lemma setRemove_setInsert_of_not_mem {x : String} {l : List String}
    (h : x ∉ l) : setRemove x (setInsert x l) = l := by
  have h1 : setInsert x l = x :: l := by
    unfold setInsert
    rw [if_neg (by simpa using h)]
  rw [h1]
  unfold setRemove
  simp only [List.filter_cons, bne_self_eq_false, Bool.false_eq_true,
    if_false]
  apply List.filter_eq_self.mpr
  intro b hb
  simp only [bne_iff_ne, ne_eq]
  intro heq
  exact h (heq ▸ hb)

lemma recordedCycle_closedWalk (graph : List (String × List String))
    {path : List String} {node nb : String}
    (hchain : path.Chain' (EdgeRel graph))
    (hlast : path.getLast? = some node)
    (hnb : nb ∈ path)
    (hedge : EdgeRel graph node nb) :
    IsClosedWalk graph (recordedCycle path nb) := by
  unfold recordedCycle IsClosedWalk
  have hi : List.indexOf nb path < path.length :=
    List.indexOf_lt_length.mpr hnb
  have hdropne : path.drop (List.indexOf nb path) ≠ [] := by
    rw [ne_eq, List.drop_eq_nil_iff]
    omega
  have hdroplast :
      (path.drop (List.indexOf nb path)).getLast? = path.getLast? := by
    conv_rhs => rw [← List.take_append_drop (List.indexOf nb path) path]
    rw [List.getLast?_append_of_ne_nil _ hdropne]
  have hdrophead :
      (path.drop (List.indexOf nb path)).head? = some nb := by
    rw [List.head?_eq_getElem?, List.getElem?_drop, Nat.add_zero,
      List.getElem?_eq_getElem hi, List.getElem_indexOf hi]
  refine ⟨?_, ?_, ?_⟩
  · rw [List.length_append, List.length_drop, List.length_singleton]
    omega
  · rw [List.chain'_append]
    refine ⟨hchain.suffix (List.drop_suffix _ _),
      List.chain'_singleton _, ?_⟩
    intro x hx y hy
    rw [hdroplast, hlast] at hx
    simp only [Option.mem_def, Option.some_inj, List.head?_cons] at hx hy
    subst hx
    subst hy
    exact hedge
  · rw [List.head?_append, hdrophead, List.getLast?_concat]
    rfl

lemma dfsLoop_sound (graph : List (String × List String))
    (visit : String → DfsState → DfsState)
    (hvisit : ∀ (node : String) (s : DfsState),
      DfsInv graph s → node ∉ s.visited →
      (s.path ++ [node]).Chain' (EdgeRel graph) →
      DfsInv graph (visit node s) ∧ (visit node s).path = s.path ∧
      (visit node s).recStack = s.recStack ∧
      (∀ x ∈ s.visited, x ∈ (visit node s).visited))
    (node : String) :
    ∀ (l : List String) (s : DfsState),
      DfsInv graph s →
      s.path.getLast? = some node →
      (∀ nb ∈ l, EdgeRel graph node nb) →
      DfsInv graph (l.foldl (dfsStep visit) s) ∧
      (l.foldl (dfsStep visit) s).path = s.path ∧
      (l.foldl (dfsStep visit) s).recStack = s.recStack ∧
      (∀ x ∈ s.visited, x ∈ (l.foldl (dfsStep visit) s).visited) := by
  intro l
  induction l with
  | nil =>
      intro s hinv _ _
      exact ⟨hinv, rfl, rfl, fun x hx => hx⟩
  | cons nb rest ih =>
      intro s hinv hlast hedges
      rw [List.foldl_cons]
      have hstep :
          DfsInv graph (dfsStep visit s nb) ∧
          (dfsStep visit s nb).path = s.path ∧
          (dfsStep visit s nb).recStack = s.recStack ∧
          (∀ x ∈ s.visited, x ∈ (dfsStep visit s nb).visited) := by
        unfold dfsStep
        split_ifs with hv hr
        · -- visited and on the recursion stack: record a cycle
          obtain ⟨hcyc, hchain, hrp, hrv⟩ := hinv
          have hnbp : nb ∈ s.path := by
            apply hrp
            simpa using hr
          refine ⟨⟨?_, hchain, hrp, hrv⟩, rfl, rfl, fun x hx => hx⟩
          intro c hc
          rw [List.mem_append] at hc
          rcases hc with hc | hc
          · exact hcyc c hc
          · rw [List.mem_singleton] at hc
            subst hc
            exact recordedCycle_closedWalk graph hchain hlast hnbp
              (hedges nb (List.mem_cons_self nb rest))
        · -- visited, not on the recursion stack: no change
          exact ⟨hinv, rfl, rfl, fun x hx => hx⟩
        · -- unvisited: recurse
          have hnv : nb ∉ s.visited := by simpa using hv
          have hch : (s.path ++ [nb]).Chain' (EdgeRel graph) := by
            rw [List.chain'_append]
            refine ⟨hinv.2.1, List.chain'_singleton _, ?_⟩
            intro x hx y hy
            rw [hlast] at hx
            simp only [Option.mem_def, Option.some_inj,
              List.head?_cons] at hx hy
            subst hx
            subst hy
            exact hedges nb (List.mem_cons_self nb rest)
          exact hvisit nb s hinv hnv hch
      obtain ⟨hinv', hp', hr', hv'⟩ := hstep
      have hlast' : (dfsStep visit s nb).path.getLast? = some node := by
        rw [hp']; exact hlast
      have hedges' : ∀ x ∈ rest, EdgeRel graph node x :=
        fun x hx => hedges x (List.mem_cons_of_mem nb hx)
      obtain ⟨hinv'', hp'', hr'', hv''⟩ :=
        ih (dfsStep visit s nb) hinv' hlast' hedges'
      refine ⟨hinv'', by rw [hp'', hp'], by rw [hr'', hr'], ?_⟩
      intro x hx
      exact hv'' x (hv' x hx)

lemma dfsVisit_sound (graph : List (String × List String)) :
    ∀ (fuel : ℕ) (node : String) (s : DfsState),
      DfsInv graph s →
      node ∉ s.visited →
      (s.path ++ [node]).Chain' (EdgeRel graph) →
      DfsInv graph (dfsVisit graph fuel node s) ∧
      (dfsVisit graph fuel node s).path = s.path ∧
      (dfsVisit graph fuel node s).recStack = s.recStack ∧
      (∀ x ∈ s.visited, x ∈ (dfsVisit graph fuel node s).visited) := by
  intro fuel
  induction fuel with
  | zero =>
      intro node s hinv _ _
      exact ⟨hinv, rfl, rfl, fun x hx => hx⟩
  | succ fuel ih =>
      intro node s hinv hnv hchain
      obtain ⟨hcyc, hpchain, hrp, hrv⟩ := hinv
      have hnr : node ∉ s.recStack := fun hmem => hnv (hrv node hmem)
      set s1 : DfsState :=
        { visited := setInsert node s.visited
          recStack := setInsert node s.recStack
          cycles := s.cycles
          path := s.path ++ [node] } with hs1
      have hinv1 : DfsInv graph s1 := by
        refine ⟨hcyc, hchain, ?_, ?_⟩
        · intro x hx
          rw [hs1] at hx ⊢
          simp only at hx ⊢
          rcases mem_setInsert.mp hx with rfl | hx
          · exact List.mem_append_right _ (List.mem_singleton_self x)
          · exact List.mem_append_left _ (hrp x hx)
        · intro x hx
          rw [hs1] at hx ⊢
          simp only at hx ⊢
          rcases mem_setInsert.mp hx with rfl | hx
          · exact mem_setInsert.mpr (Or.inl rfl)
          · exact mem_setInsert.mpr (Or.inr (hrv x hx))
      have hlast1 : s1.path.getLast? = some node := by
        rw [hs1]
        exact List.getLast?_concat s.path
      obtain ⟨hinv2, hp2, hr2, hv2⟩ :=
        dfsLoop_sound graph (dfsVisit graph fuel) ih node
          (lookupG graph node) s1 hinv1 hlast1 (fun nb hnb => hnb)
      rw [show dfsVisit graph (fuel + 1) node s =
          { visited := ((lookupG graph node).foldl
              (dfsStep (dfsVisit graph fuel)) s1).visited
            recStack := setRemove node
              (((lookupG graph node).foldl
                (dfsStep (dfsVisit graph fuel)) s1).recStack)
            cycles := ((lookupG graph node).foldl
              (dfsStep (dfsVisit graph fuel)) s1).cycles
            path := (((lookupG graph node).foldl
              (dfsStep (dfsVisit graph fuel)) s1).path).dropLast }
        from rfl]
      obtain ⟨hcyc2, hchain2, hrp2, hrv2⟩ := hinv2
      have hpath : (((lookupG graph node).foldl
          (dfsStep (dfsVisit graph fuel)) s1).path).dropLast = s.path := by
        rw [hp2, hs1]
        simp only
        exact List.dropLast_concat
      have hrec : setRemove node
          (((lookupG graph node).foldl
            (dfsStep (dfsVisit graph fuel)) s1).recStack) = s.recStack := by
        rw [hr2, hs1]
        simp only
        exact setRemove_setInsert_of_not_mem hnr
      refine ⟨⟨hcyc2, ?_, ?_, ?_⟩, hpath, hrec, ?_⟩
      · simp only [hpath]
        exact hpchain
      · intro x hx
        simp only [hrec, hpath] at hx ⊢
        exact hrp x hx
      · intro x hx
        simp only [hrec] at hx
        exact hv2 x (mem_setInsert.mpr (Or.inr (hrv x hx)))
      · intro x hx
        exact hv2 x (mem_setInsert.mpr (Or.inr hx))

lemma find_circular_cycles_closed (graph : List (String × List String)) :
    ∀ c ∈ find_circular_dependencies graph, IsClosedWalk graph c := by
  have main : ∀ (entries : List (String × List String)) (s : DfsState),
      DfsInv graph s → s.path = [] → s.recStack = [] →
      DfsInv graph (entries.foldl
        (fun s p =>
          if s.visited.contains p.1 then s
          else dfsVisit graph (dfsFuel graph) p.1 s) s) ∧
      (entries.foldl
        (fun s p =>
          if s.visited.contains p.1 then s
          else dfsVisit graph (dfsFuel graph) p.1 s) s).path = [] ∧
      (entries.foldl
        (fun s p =>
          if s.visited.contains p.1 then s
          else dfsVisit graph (dfsFuel graph) p.1 s) s).recStack = [] := by
    intro entries
    induction entries with
    | nil => intro s hinv hp hr; exact ⟨hinv, hp, hr⟩
    | cons p rest ih =>
        intro s hinv hp hr
        rw [List.foldl_cons]
        by_cases hv : s.visited.contains p.1
        · rw [if_pos hv]
          exact ih s hinv hp hr
        · rw [if_neg hv]
          have hnv : p.1 ∉ s.visited := by simpa using hv
          have hch : (s.path ++ [p.1]).Chain' (EdgeRel graph) := by
            rw [hp]
            simp
          obtain ⟨hinv', hp', hr', _⟩ :=
            dfsVisit_sound graph (dfsFuel graph) p.1 s hinv hnv hch
          exact ih _ hinv' (by rw [hp', hp]) (by rw [hr', hr])
  intro c hc
  unfold find_circular_dependencies at hc
  have hinit : DfsInv graph
      { visited := [], recStack := [], cycles := [], path := [] } := by
    refine ⟨?_, ?_, ?_, ?_⟩ <;> simp
  obtain ⟨⟨hcyc, _, _, _⟩, _, _⟩ := main graph
    { visited := [], recStack := [], cycles := [], path := [] }
    hinit rfl rfl
  exact hcyc c hc

/-- C9: `find_circular_dependencies` returns the empty list on every
graph containing no cycles, and on the two-node graph
`{A: [B], B: [A]}` it returns at least one cycle containing both `A`
and `B`. -/
theorem find_circular_dependencies_correct :
    (∀ graph, AcyclicGraph graph →
        find_circular_dependencies graph = []) ∧
    ∃ c ∈ find_circular_dependencies [("A", ["B"]), ("B", ["A"])],
      "A" ∈ c ∧ "B" ∈ c := by
  constructor
  · intro graph hac
    rw [List.eq_nil_iff_forall_not_mem]
    intro c hc
    exact hac c (find_circular_cycles_closed graph c hc)
  · refine ⟨["A", "B", "A"], ?_, by simp, by simp⟩
    rw [show find_circular_dependencies [("A", ["B"]), ("B", ["A"])] =
        [["A", "B", "A"]] from rfl]
    exact List.mem_singleton_self _

/-- Witness for C9's theorem: the one-node edgeless graph is acyclic and
the detector returns no cycle on it. -/
theorem find_circular_dependencies_correct_witness :
    find_circular_dependencies [("A", ([] : List String))] = [] := by
  apply find_circular_dependencies_correct.1
  intro c hc
  obtain ⟨hlen, hchain, -⟩ := hc
  have hlookup : ∀ a, lookupG [("A", ([] : List String))] a = [] := by
    intro a
    unfold lookupG
    cases hfind : List.find? (fun p => p.1 == a)
        [("A", ([] : List String))] with
    | none => rfl
    | some p =>
        have hmem := List.mem_of_find?_eq_some hfind
        rw [List.mem_singleton] at hmem
        rw [hmem]
  cases c with
  | nil => simp at hlen
  | cons a t =>
      cases t with
      | nil => simp at hlen
      | cons b rest =>
          have hedge : EdgeRel [("A", ([] : List String))] a b :=
            (List.chain'_cons.mp hchain).1
          unfold EdgeRel at hedge
          rw [hlookup a] at hedge
          simp at hedge

/-! ## Coupling ranking (towards C2) -/

lemma bumpDegree_spec (flat : List String) :
    ((flat.foldl bumpDegree []).map Prod.fst).Nodup ∧
    (∀ p ∈ flat.foldl bumpDegree [], p.2 = flat.count p.1 ∧ p.1 ∈ flat) ∧
    (∀ m ∈ flat, m ∈ (flat.foldl bumpDegree []).map Prod.fst) := by
  induction flat using List.reverseRecOn with
  | nil => simp
  | append_singleton pre d ih =>
      rw [List.foldl_append, List.foldl_cons, List.foldl_nil]
      obtain ⟨hnd, hval, hkeys⟩ := ih
      set st := pre.foldl bumpDegree [] with hst
      unfold bumpDegree
      split_ifs with hany
      · -- d already has a key: bump its count
        have hd : d ∈ st.map Prod.fst := by
          rw [List.any_eq_true] at hany
          obtain ⟨p, hp, hpd⟩ := hany
          rw [beq_iff_eq] at hpd
          exact hpd ▸ List.mem_map_of_mem Prod.fst hp
        have hkeyseq : (st.map
            (fun p => if p.1 == d then (p.1, p.2 + 1) else p)).map
              Prod.fst = st.map Prod.fst := by
          rw [List.map_map]
          apply List.map_congr_left
          intro p _
          by_cases hpd : p.1 = d
          · simp [hpd]
          · simp [hpd]
        refine ⟨by rw [hkeyseq]; exact hnd, ?_, ?_⟩
        · intro p hp
          rw [List.mem_map] at hp
          obtain ⟨q, hq, hgq⟩ := hp
          by_cases hqd : q.1 = d
          · rw [if_pos (beq_iff_eq.mpr hqd)] at hgq
            subst hgq
            constructor
            · show q.2 + 1 = (pre ++ [d]).count q.1
              rw [List.count_append, (hval q hq).1, hqd]
              simp
            · exact List.mem_append_right _ (hqd ▸ List.mem_singleton_self d)
          · rw [if_neg (by simpa using hqd)] at hgq
            subst hgq
            constructor
            · rw [List.count_append, (hval q hq).1]
              have h2 : [d].count q.1 = 0 := by
                simp [List.count_singleton', hqd]
              omega
            · exact List.mem_append_left _ (hval q hq).2
        · intro m hm
          rw [hkeyseq]
          rcases List.mem_append.mp hm with hm | hm
          · exact hkeys m hm
          · rw [List.mem_singleton] at hm
            exact hm ▸ hd
      · -- d is a fresh key: append (d, 1)
        have hd : d ∉ st.map Prod.fst := by
          intro hmem
          rw [List.mem_map] at hmem
          obtain ⟨p, hp, hpd⟩ := hmem
          apply hany
          rw [List.any_eq_true]
          exact ⟨p, hp, beq_iff_eq.mpr hpd⟩
        have hdpre : d ∉ pre := fun hdp => hd (hkeys d hdp)
        refine ⟨?_, ?_, ?_⟩
        · rw [List.map_append]
          simp only [List.map_cons, List.map_nil]
          rw [List.nodup_append]
          exact ⟨hnd, List.nodup_singleton d, by simpa using hd⟩
        · intro p hp
          rcases List.mem_append.mp hp with hp | hp
          · have hpne : p.1 ≠ d := fun he =>
              hd (he ▸ List.mem_map_of_mem Prod.fst hp)
            constructor
            · rw [List.count_append, (hval p hp).1]
              have h2 : [d].count p.1 = 0 := by
                simp [List.count_singleton', hpne]
              omega
            · exact List.mem_append_left _ (hval p hp).2
          · rw [List.mem_singleton] at hp
            subst hp
            constructor
            · show 1 = (pre ++ [d]).count d
              rw [List.count_append, List.count_eq_zero.mpr hdpre]
              simp
            · exact List.mem_append_right _ (List.mem_singleton_self d)
        · intro m hm
          rw [List.map_append, List.mem_append]
          rcases List.mem_append.mp hm with hm | hm
          · exact Or.inl (hkeys m hm)
          · right
            simpa using hm

lemma inDegree_eq_occCount (graph : List (String × List String))
    (m : String) : inDegree graph m = occCount graph m := by
  obtain ⟨hnd, hval, hkeys⟩ := bumpDegree_spec ((graph.map Prod.snd).flatten)
  unfold inDegree occCount
  cases hfind : (inDegreeList graph).find? (fun p => p.1 == m) with
  | some p =>
      have hmem : p ∈ inDegreeList graph := List.mem_of_find?_eq_some hfind
      have hpm : p.1 = m := by simpa using List.find?_some hfind
      show p.2 = _
      rw [← hpm]
      exact (hval p hmem).1
  | none =>
      show (0 : ℕ) = _
      have hnm : m ∉ (graph.map Prod.snd).flatten := by
        intro hm
        obtain ⟨p, hp, hpm⟩ := List.mem_map.mp (hkeys m hm)
        exact (List.find?_eq_none.mp hfind p hp) (by simpa using hpm)
      rw [List.count_eq_zero.mpr hnm]

lemma insertDesc_perm (key : String → ℕ) (x : String) (l : List String) :
    List.Perm (insertDesc key x l) (x :: l) := by
  induction l with
  | nil => exact List.Perm.refl _
  | cons y ys ih =>
      unfold insertDesc
      split_ifs
      · exact List.Perm.refl _
      · exact (ih.cons y).trans (List.Perm.swap x y ys)

lemma sortDesc_perm (key : String → ℕ) (l : List String) :
    List.Perm (sortDesc key l) l := by
  induction l with
  | nil => exact List.Perm.refl _
  | cons x xs ih =>
      exact (insertDesc_perm key x (sortDesc key xs)).trans (ih.cons x)

lemma insertDesc_sorted (key : String → ℕ) (x : String) (l : List String)
    (h : l.Chain' (fun a b => key b ≤ key a)) :
    (insertDesc key x l).Chain' (fun a b => key b ≤ key a) := by
  induction l with
  | nil => simp [insertDesc]
  | cons y ys ih =>
      unfold insertDesc
      split_ifs with hle
      · exact List.chain'_cons.mpr ⟨hle, h⟩
      · push_neg at hle
        have hins := ih h.tail
        rw [List.chain'_cons']
        refine ⟨?_, hins⟩
        intro z hz
        cases ys with
        | nil =>
            simp only [insertDesc, List.head?_cons, Option.mem_def,
              Option.some_inj] at hz
            subst hz
            exact le_of_lt hle
        | cons w ws =>
            unfold insertDesc at hz
            split_ifs at hz with h2
            · simp only [List.head?_cons, Option.mem_def,
                Option.some_inj] at hz
              subst hz
              exact le_of_lt hle
            · simp only [List.head?_cons, Option.mem_def,
                Option.some_inj] at hz
              subst hz
              exact (List.chain'_cons.mp h).1

lemma sortDesc_sorted (key : String → ℕ) (l : List String) :
    (sortDesc key l).Chain' (fun a b => key b ≤ key a) := by
  induction l with
  | nil => simp [sortDesc]
  | cons x xs ih => exact insertDesc_sorted key x _ ih

/-- C2 counterexample: on the one-entry graph whose edge list names `x`
five times, the in-degree the code accumulates is the occurrence count
(5), not the number of distinct dependents (1), so `x` is reported at
the default threshold 5 although only one source node names it. -/
theorem coupling_counts_occurrences_not_dependents :
    find_high_coupling_modules [("a", ["x", "x", "x", "x", "x"])] 5 =
      ["x"] ∧
    distinctDependents [("a", ["x", "x", "x", "x", "x"])] "x" = 1 :=
  ⟨rfl, rfl⟩

/-- C2 (amended): `find_high_coupling_modules` computes each node's
in-degree as the number of occurrences of the node across all edge lists
(duplicates within one list each count), returns exactly the nodes whose
occurrence count meets the threshold, without duplicates, sorted by that
count descending. -/
theorem find_high_coupling_modules_correct
    (graph : List (String × List String)) (threshold : ℕ) :
    (find_high_coupling_modules graph threshold).Nodup ∧
    (∀ m, m ∈ find_high_coupling_modules graph threshold ↔
        threshold ≤ occCount graph m ∧
        m ∈ (graph.map Prod.snd).flatten) ∧
    (find_high_coupling_modules graph threshold).Chain'
      (fun a b => occCount graph b ≤ occCount graph a) := by
  obtain ⟨hnd, hval, hkeys⟩ := bumpDegree_spec ((graph.map Prod.snd).flatten)
  have hperm : List.Perm (find_high_coupling_modules graph threshold)
      (((inDegreeList graph).filter
        (fun p => threshold ≤ p.2)).map Prod.fst) :=
    sortDesc_perm _ _
  refine ⟨?_, ?_, ?_⟩
  · apply hperm.nodup_iff.mpr
    exact ((List.filter_sublist _).map Prod.fst).nodup hnd
  · intro m
    rw [hperm.mem_iff]
    constructor
    · intro hm
      obtain ⟨p, hp, hpm⟩ := List.mem_map.mp hm
      rw [List.mem_filter] at hp
      obtain ⟨hpmem, hpthr⟩ := hp
      obtain ⟨hcount, hflat⟩ := hval p hpmem
      rw [← hpm]
      refine ⟨?_, hflat⟩
      unfold occCount
      rw [← hcount]
      simpa using hpthr
    · rintro ⟨hthr, hflat⟩
      obtain ⟨p, hp, hpm⟩ := List.mem_map.mp (hkeys m hflat)
      apply List.mem_map.mpr
      refine ⟨p, List.mem_filter.mpr ⟨hp, ?_⟩, hpm⟩
      have := (hval p hp).1
      rw [hpm] at this
      simp only [decide_eq_true_eq]
      rw [this]
      exact hthr
  · have hs := sortDesc_sorted (fun m => inDegree graph m)
      (((inDegreeList graph).filter
        (fun p => threshold ≤ p.2)).map Prod.fst)
    apply hs.imp
    intro a b hab
    rw [← inDegree_eq_occCount, ← inDegree_eq_occCount]
    exact hab

/-! ## Graph-builder invariant (towards C8) -/

lemma mem_internalModules_aux (l : List FileEntry) :
    ∀ (acc : List String) (m : String),
      (m ∈ l.foldl
        (fun acc f =>
          let acc1 := acc ++ [(splitext f.fname).1]
          if f.dirRel = "." then acc1
          else acc1 ++
            [(splitOnChar '.' (replaceChar '/' '.' f.dirRel)).headD ""])
        acc) ↔
      m ∈ acc ∨ ∃ f ∈ l,
        m = (splitext f.fname).1 ∨
        (f.dirRel ≠ "." ∧
         m = (splitOnChar '.' (replaceChar '/' '.' f.dirRel)).headD "") := by
  induction l with
  | nil =>
      intro acc m
      simp
  | cons g t ih =>
      intro acc m
      rw [List.foldl_cons, ih]
      by_cases hg : g.dirRel = "."
      · simp only [hg, if_pos rfl]
        constructor
        · rintro (hm | hf)
          · rcases List.mem_append.mp hm with hm | hm
            · exact Or.inl hm
            · rw [List.mem_singleton] at hm
              exact Or.inr ⟨g, List.mem_cons_self g t, Or.inl hm⟩
          · obtain ⟨f, hf, hp⟩ := hf
            exact Or.inr ⟨f, List.mem_cons_of_mem g hf, hp⟩
        · rintro (hm | ⟨f, hfmem, hp⟩)
          · exact Or.inl (List.mem_append_left _ hm)
          · rcases List.mem_cons.mp hfmem with rfl | hfmem
            · rcases hp with hp | ⟨hne, _⟩
              · exact Or.inl
                  (List.mem_append_right _ (by simpa using hp))
              · exact absurd hg hne
            · exact Or.inr ⟨f, hfmem, hp⟩
      · simp only [if_neg hg]
        constructor
        · rintro (hm | hf)
          · rcases List.mem_append.mp hm with hm | hm
            · rcases List.mem_append.mp hm with hm | hm
              · exact Or.inl hm
              · rw [List.mem_singleton] at hm
                exact Or.inr ⟨g, List.mem_cons_self g t, Or.inl hm⟩
            · rw [List.mem_singleton] at hm
              exact Or.inr ⟨g, List.mem_cons_self g t, Or.inr ⟨hg, hm⟩⟩
          · obtain ⟨f, hf, hp⟩ := hf
            exact Or.inr ⟨f, List.mem_cons_of_mem g hf, hp⟩
        · rintro (hm | ⟨f, hfmem, hp⟩)
          · exact Or.inl
              (List.mem_append_left _ (List.mem_append_left _ hm))
          · rcases List.mem_cons.mp hfmem with rfl | hfmem
            · rcases hp with hp | ⟨-, hp⟩
              · exact Or.inl (List.mem_append_left _
                  (List.mem_append_right _ (by simpa using hp)))
              · exact Or.inl
                  (List.mem_append_right _ (by simpa using hp))
            · exact Or.inr ⟨f, hfmem, hp⟩

lemma mem_internalModules (files : List FileEntry) (m : String) :
    m ∈ internalModules files ↔
      ∃ f ∈ sourceFiles files,
        m = (splitext f.fname).1 ∨
        (f.dirRel ≠ "." ∧
         m = (splitOnChar '.' (replaceChar '/' '.' f.dirRel)).headD "") := by
  unfold internalModules
  rw [mem_internalModules_aux]
  simp

/-- C8 counterexample: in a repository holding exactly `pkg/a.py` whose
sole statement imports `pkg`, the builder returns a graph whose edge
entry `pkg` is a directory name, not the path or base name of any
discovered file. -/
theorem graph_edge_names_directory :
    build_dependency_graph pkgWalk 2000 = [("pkg/a.py", ["pkg"])] ∧
    correspondsToFile pkgWalk "pkg" = false :=
  ⟨rfl, rfl⟩

/-- C8 (amended): every graph returned by `build_dependency_graph` has
no references outside the scanned internal-name registry — every node
key is the repo-relative path of a recognized source file, and every
edge entry is either the base name of a recognized source file or the
first path component of a recognized source file's directory. -/
theorem build_dependency_graph_no_dangling
    (files : List FileEntry) (maxFiles : ℕ) :
    ∀ p ∈ build_dependency_graph files maxFiles,
      (∃ f ∈ sourceFiles files, p.1 = relPath f) ∧
      ∀ dep ∈ p.2,
        ∃ f ∈ sourceFiles files,
          dep = (splitext f.fname).1 ∨
          (f.dirRel ≠ "." ∧
           dep = (splitOnChar '.' (replaceChar '/' '.' f.dirRel)).headD "") := by
  intro p hp
  unfold build_dependency_graph at hp
  rw [List.mem_filterMap] at hp
  obtain ⟨f, hfmem, hf⟩ := hp
  have hfsrc : f ∈ sourceFiles files := List.take_subset _ _ hfmem
  dsimp only at hf
  split_ifs at hf with hie
  · rw [Option.some_inj] at hf
    subst hf
    refine ⟨⟨f, hfsrc, rfl⟩, ?_⟩
    intro dep hdep
    rw [List.mem_filter] at hdep
    have hmem : dep ∈ internalModules files := by simpa using hdep.2
    exact (mem_internalModules files dep).mp hmem

/-- Witness for C8's amended theorem at the entry `("a.py", ["b"])` of
the two-file repository's graph. -/
theorem build_dependency_graph_no_dangling_witness :
    (∃ f ∈ sourceFiles abWalk, "a.py" = relPath f) ∧
    ∀ dep ∈ (["b"] : List String),
      ∃ f ∈ sourceFiles abWalk,
        dep = (splitext f.fname).1 ∨
        (f.dirRel ≠ "." ∧
         dep = (splitOnChar '.' (replaceChar '/' '.' f.dirRel)).headD "") :=
  build_dependency_graph_no_dangling abWalk 2000 ("a.py", ["b"])
    (by rw [show build_dependency_graph abWalk 2000 =
        [("a.py", ["b"]), ("b.py", ["a"])] from rfl]
        exact List.mem_cons_self _ _)

end RepoIntel
